import Mathlib

/-!
Shallow embedding of `src/returnn/torch/data_pipeline.py`: the `Chunker` and
`Batching` iterable datasets and the `NumbersDict` values they manipulate.
Numpy arrays are modelled as lists of rows (`List α`, axis 0 outermost), and
records (`dict[str, numpy.ndarray]`) as association lists in insertion order,
mirroring Python dict iteration order.
-/

/-- Modelled from the spec: `returnn.util.basic.NumbersDict` is not part of the
source tree. Per §4.1 (SizeVector) it is a mapping from field name to a
non-negative number, built either from a field-keyed mapping (explicit keys, no
default) or from a single scalar (no explicit keys, broadcast default), a
missing key falling back to the default when one is declared. -/
structure NumbersDict where
  dict : List (String × Nat)
  value : Option Nat
  deriving Repr, DecidableEq

/-- Modelled from the spec: `NumbersDict(int)`, a single scalar broadcast
default with no explicit keys. -/
def NumbersDict.ofInt (n : Nat) : NumbersDict :=
  ⟨[], some n⟩

/-- Modelled from the spec: `NumbersDict(dict)`, explicit per-field keys and no
broadcast default. -/
def NumbersDict.ofDict (d : List (String × Nat)) : NumbersDict :=
  ⟨d, none⟩

/-- The explicit keys of a `NumbersDict` (`NumbersDict.keys()`). -/
def NumbersDict.keys (d : NumbersDict) : List String :=
  d.dict.map Prod.fst

/-- Modelled from the spec: lookup of one field, explicit key first, then the
broadcast default; `none` when neither exists (Python `KeyError`). -/
def NumbersDict.get? (d : NumbersDict) (k : String) : Option Nat :=
  match d.dict.lookup k with
  | some v => some v
  | none => d.value

/-- Union of two key lists, keeping the left list's order first, as the union
of two Python dicts' key sets would iterate. -/
def unionKeys (a b : List String) : List String :=
  a ++ b.filter (fun k => !a.contains k)

/-- Modelled from the spec: `elementwise_max(a, b)`, a mapping from the union
of both key sets to `max(a[k] or default, b[k] or default)` (a field absent
from a vector with no default counts as 0); the broadcast defaults are
combined when both are present. Embeds `NumbersDict.max([a, b])`. -/
def NumbersDict.elemMax (a b : NumbersDict) : NumbersDict where
  dict := (unionKeys a.keys b.keys).map
    (fun k => (k, Nat.max ((a.get? k).getD 0) ((b.get? k).getD 0)))
  value := match a.value, b.value with
    | some x, some y => some (Nat.max x y)
    | _, _ => none

/-- Modelled from the spec: `scale(n)`, multiply every explicit value and the
broadcast default by `n`. Embeds `numbers_dict * n`. -/
def NumbersDict.scale (d : NumbersDict) (n : Nat) : NumbersDict where
  dict := d.dict.map (fun kv => (kv.1, kv.2 * n))
  value := d.value.map (fun v => v * n)

/-- Modelled from the spec: `any_exceeds(other)` — true iff some explicit key
of `self` is strictly greater than the corresponding value (or default) of
`other`, or both broadcast defaults exist and `self`'s exceeds `other`'s.
Embeds `self.any_compare(other, lambda a, b: a > b)`. -/
def NumbersDict.anyExceeds (a b : NumbersDict) : Bool :=
  a.dict.any (fun kv =>
    match b.get? kv.1 with
    | some m => decide (m < kv.2)
    | none => false)
  || (match a.value, b.value with
      | some x, some y => decide (y < x)
      | _, _ => false)

/-- Modelled from the spec: `min_value()`, the smallest value among the
explicit per-key values and the broadcast default; `none` on a fully empty
vector (Python `min([])` raises). -/
def NumbersDict.minValue (d : NumbersDict) : Option Nat :=
  (d.dict.map Prod.snd ++ d.value.toList).min?

/-- One sample record: `dict[str, numpy.ndarray]`, axis 0 outermost. -/
abbrev SampleRecord (α : Type) := List (String × List α)

variable {α : Type}

/-- Axis-0 length of every field of a record:
`NumbersDict({data_key: data.shape[0] for data_key, data in data_dict.items()})`. -/
def recordLengths (r : SampleRecord α) : NumbersDict :=
  ⟨r.map (fun kv => (kv.1, kv.2.length)), none⟩

/-- Whether the keys of a record are pairwise distinct, as the keys of a
Python dict always are. -/
def SampleRecord.keysNodup (r : SampleRecord α) : Prop :=
  (r.map Prod.fst).Nodup

instance (r : SampleRecord α) : Decidable r.keysNodup :=
  inferInstanceAs (Decidable (r.map Prod.fst).Nodup)

/-! ## Batching (`Batching.__iter__`, src/returnn/torch/data_pipeline.py:191-221) -/

/-- The body of `Batching.__iter__`, processing the remaining `stream` with
loop state `currentBatch` / `currentMax` (`current_batch`,
`current_max_sequence_lengths`); returns the list of yielded batches. -/
def batchIter (maxSize : NumbersDict) (maxSeqs : Nat) :
    List (SampleRecord α) → List (SampleRecord α) → NumbersDict →
    List (List (SampleRecord α))
  | [], currentBatch, _ =>
    -- `if current_batch: yield current_batch`
    if currentBatch.isEmpty then [] else [currentBatch]
  | r :: rest, currentBatch, currentMax =>
    -- `if len(current_batch) == self._max_seqs: yield current_batch` and reset
    let pre := if currentBatch.length = maxSeqs then [currentBatch] else []
    let cur := if currentBatch.length = maxSeqs then [] else currentBatch
    let curMax := if currentBatch.length = maxSeqs then NumbersDict.ofInt 0 else currentMax
    let sequenceLengths := recordLengths r
    let maxIfIncluded := curMax.elemMax sequenceLengths
    let sizeIfIncluded := maxIfIncluded.scale (cur.length + 1)
    -- `if current_batch and batch_size_if_included.any_compare(max, >)`
    if !cur.isEmpty && sizeIfIncluded.anyExceeds maxSize then
      pre ++ (cur :: batchIter maxSize maxSeqs rest [r] sequenceLengths)
    else
      pre ++ batchIter maxSize maxSeqs rest (cur ++ [r]) maxIfIncluded

/-- Run of `Batching.__iter__` over a whole finite stream, starting from an
empty batch and `NumbersDict(0)` as `current_max_sequence_lengths`. -/
def batchingRun (maxSize : NumbersDict) (maxSeqs : Nat)
    (stream : List (SampleRecord α)) : List (List (SampleRecord α)) :=
  batchIter maxSize maxSeqs stream [] (NumbersDict.ofInt 0)

/-- The per-field maximum axis-0 length over the records of a batch, as the
batching loop accumulates it. -/
def batchMaxLens (b : List (SampleRecord α)) : NumbersDict :=
  b.foldl (fun acc r => acc.elemMax (recordLengths r)) (NumbersDict.ofInt 0)

/-! ## Chunker (`Chunker`, src/returnn/torch/data_pipeline.py:68-161) -/

/-- The chunks of one field's array:
`[data[start : start + chunk_size] for start in range(0, len(data), chunk_step)]`.
For `chunk_step > 0`, `range(0, n, step)` has `(n + step - 1) / step` elements
`0, step, 2*step, ...`, and the Python slice clamps at the end of the array. -/
def sliceChunks (data : List α) (chunkSize chunkStep : Nat) : List (List α) :=
  (List.range' 0 ((data.length + chunkStep - 1) / chunkStep) chunkStep).map
    (fun start => (data.drop start).take chunkSize)

/-- The ways one record can make `Chunker.__iter__` fail. -/
inductive ChunkError where
  /-- Python `assert chunking_data_keys, "Dataset produced sequence without any data."` -/
  | noDataKeys
  /-- Python `KeyError` from `self._chunk_size[data_key]`, `self._chunk_step[data_key]`
  or `data_dict[data_key]`. -/
  | keyError
  /-- Python `assert num_chunks == len(chunks), "Chunking resulted in different number
  of chunks for different data keys."` -/
  | mismatch
  /-- Python `assert num_chunks, "Bug: no chunk produced from current sequence."` -/
  | noChunks
  deriving Repr, DecidableEq

/-- The chunk list of one data key of one record: looks up the configured
size and step and the field's array, then slices. -/
def fieldChunks (chunkSize chunkStep : NumbersDict) (r : SampleRecord α)
    (k : String) : Option (List (List α)) :=
  match chunkSize.get? k, chunkStep.get? k, r.lookup k with
  | some size, some step, some data => some (sliceChunks data size step)
  | _, _, _ => none

/-- Number of chunks one data key of one record yields. -/
def fieldNumChunks (chunkSize chunkStep : NumbersDict) (r : SampleRecord α)
    (k : String) : Option Nat :=
  (fieldChunks chunkSize chunkStep r k).map List.length

/-- The `for data_key in chunking_data_keys` loop of `Chunker.__iter__`:
builds `data_chunks` in key order while carrying `num_chunks` (`none` before
the first key) and checking every later key against it. -/
def collectChunks (chunkSize chunkStep : NumbersDict) (r : SampleRecord α) :
    List String → Option Nat →
    Except ChunkError (List (String × List (List α)) × Option Nat)
  | [], numChunks => .ok ([], numChunks)
  | k :: ks, numChunks =>
    match fieldChunks chunkSize chunkStep r k with
    | none => .error .keyError
    | some chunks =>
      match numChunks with
      | none =>
        match collectChunks chunkSize chunkStep r ks (some chunks.length) with
        | .ok (restChunks, numChunks1) => .ok ((k, chunks) :: restChunks, numChunks1)
        | .error e => .error e
      | some n =>
        if n = chunks.length then
          match collectChunks chunkSize chunkStep r ks (some n) with
          | .ok (restChunks, numChunks1) => .ok ((k, chunks) :: restChunks, numChunks1)
          | .error e => .error e
        else .error .mismatch

/-- Processing of one record inside `Chunker.__iter__` (lines 102-136), with
`keys` the current `chunking_data_keys`: collect each key's chunks, check the
chunk counts agree and are positive, then emit one record per chunk index —
the chunked keys with their i-th slice followed by the remaining keys of the
input record with their full data (the `deepcopy` of `non_chunked_data`; a
value copy is the identity in this pure model). Each chunk list has length
`num_chunks`, so the index into it is always in range. -/
def chunkRecord (chunkSize chunkStep : NumbersDict) (keys : List String)
    (r : SampleRecord α) : Except ChunkError (List (SampleRecord α)) :=
  match collectChunks chunkSize chunkStep r keys none with
  | .error e => .error e
  | .ok (dataChunks, numChunks) =>
    match numChunks with
    | none => .error .noChunks
    | some 0 => .error .noChunks
    | some n =>
      let chunkedKeys := dataChunks.map Prod.fst
      .ok ((List.range n).map (fun chunkIndex =>
        dataChunks.map (fun kc => (kc.1, kc.2.getD chunkIndex []))
          ++ r.filter (fun kv => !chunkedKeys.contains kv.1)))

/-- The record loop of `Chunker.__iter__`, carrying `chunking_data_keys`,
which line 99 (`chunking_data_keys = list(data_dict.keys())`) reassigns from
the incoming record whenever it is still empty; the reassigned list then
persists for the rest of the stream. The generator aborts at the first
failing record. -/
def chunkerGo (chunkSize chunkStep : NumbersDict) :
    List String → List (SampleRecord α) → Except ChunkError (List (SampleRecord α))
  | _, [] => .ok []
  | keys0, r :: rest =>
    let keys := if keys0.isEmpty then r.map Prod.fst else keys0
    if keys.isEmpty then .error .noDataKeys
    else
      match chunkRecord chunkSize chunkStep keys r with
      | .error e => .error e
      | .ok out =>
        match chunkerGo chunkSize chunkStep keys rest with
        | .error e => .error e
        | .ok outs => .ok (out ++ outs)

/-- Run of `Chunker.__iter__` over a whole finite stream:
`chunking_data_keys = list(self._chunk_size.keys())` before the loop. -/
def chunkerIter (chunkSize chunkStep : NumbersDict)
    (stream : List (SampleRecord α)) : Except ChunkError (List (SampleRecord α)) :=
  chunkerGo chunkSize chunkStep chunkSize.keys stream

/-- Chunker iteration with one fixed active key set used for every record of
the stream. -/
def chunkerIterFixed (chunkSize chunkStep : NumbersDict) (keys : List String) :
    List (SampleRecord α) → Except ChunkError (List (SampleRecord α))
  | [] => .ok []
  | r :: rest =>
    match chunkRecord chunkSize chunkStep keys r with
    | .error e => .error e
    | .ok out =>
      match chunkerIterFixed chunkSize chunkStep keys rest with
      | .error e => .error e
      | .ok outs => .ok (out ++ outs)

/-- The active key set the chunker uses from the first record on: the explicit
keys of `chunk_size` when configured field-keyed, otherwise the fields of the
first incoming record. -/
def chunkerActiveKeys (chunkSize : NumbersDict) (firstRecord : SampleRecord α) :
    List String :=
  if chunkSize.keys.isEmpty then firstRecord.map Prod.fst else chunkSize.keys

/-- Modelled from the spec: chunker iteration as §4.2 step 1 words it, the
active field set being recomputed for EACH incoming record as "every field
present in the incoming record" when no field-keyed configuration is given. -/
def chunkerIterPerRecordKeys (chunkSize chunkStep : NumbersDict) :
    List (SampleRecord α) → Except ChunkError (List (SampleRecord α))
  | [] => .ok []
  | r :: rest =>
    let keys := if chunkSize.keys.isEmpty then r.map Prod.fst else chunkSize.keys
    if keys.isEmpty then .error .noDataKeys
    else
      match chunkRecord chunkSize chunkStep keys r with
      | .error e => .error e
      | .ok out =>
        match chunkerIterPerRecordKeys chunkSize chunkStep rest with
        | .error e => .error e
        | .ok outs => .ok (out ++ outs)

/-! ## Chunker._parse_chunking (src/returnn/torch/data_pipeline.py:138-161) -/

/-- A raw `chunk_size` / `chunk_step` value: `int` or `dict`. -/
inductive ChunkVal where
  | int (n : Nat)
  | dict (d : List (String × Nat))
  deriving Repr, DecidableEq

/-- Python `NumbersDict(chunk_size)` on a raw value. -/
def ChunkVal.toNumbersDict : ChunkVal → NumbersDict
  | .int n => NumbersDict.ofInt n
  | .dict d => NumbersDict.ofDict d

/-- The `chunking` constructor argument:
`None | int | (int, int) | dict | (dict, dict)`. -/
inductive ChunkingConfig where
  /-- a bare (non-tuple) value, possibly `None` -/
  | single (v : Option ChunkVal)
  /-- a `(chunk_size, chunk_step)` tuple -/
  | pair (size step : Option ChunkVal)
  deriving Repr, DecidableEq

/-- The `assert xs.min_value() > 0` checks: false when the vector is empty
(Python `min([])` raises, also a construction failure). -/
def minValuePositive (d : NumbersDict) : Bool :=
  match d.minValue with
  | some m => decide (0 < m)
  | none => false

/-- Embedding of `Chunker._parse_chunking` (lines 138-161): normalizes the argument to a
`(chunk_size, chunk_step)` pair of `NumbersDict`s, `none` when one of its
assertions fails. `sorted(chunk_step.keys()) == sorted(chunk_size.keys())` is
the same as the two key lists being permutations of each other. -/
def parseChunking (chunking : ChunkingConfig) : Option (NumbersDict × NumbersDict) :=
  -- `if not isinstance(chunking, (tuple, list)): chunking = (chunking, None)`
  let sizeRaw := match chunking with
    | .single v => v
    | .pair a _ => a
  let stepRaw0 := match chunking with
    | .single _ => Option.none
    | .pair _ b => b
  -- `if chunk_size is None: chunk_size = 0`
  let sizeVal := match sizeRaw with
    | Option.none => ChunkVal.int 0
    | some v => v
  let chunkSize := sizeVal.toNumbersDict
  if minValuePositive chunkSize then
    -- `if chunk_step in (None, 0): chunk_step = chunk_size`
    let chunkStep := match stepRaw0 with
      | Option.none => chunkSize
      | some (.int 0) => chunkSize
      | some v => v.toNumbersDict
    if chunkStep.keys.isPerm chunkSize.keys && minValuePositive chunkStep then
      some (chunkSize, chunkStep)
    else Option.none
  else Option.none

/-! ## Helper lemmas about the batching loop -/

theorem batchIter_flatten (maxSize : NumbersDict) (maxSeqs : Nat)
    (stream : List (SampleRecord α)) :
    ∀ (cur : List (SampleRecord α)) (curMax : NumbersDict),
      (batchIter maxSize maxSeqs stream cur curMax).flatten = cur ++ stream := by
  induction stream with
  | nil =>
    intro cur curMax
    rcases cur with _ | ⟨a, cur⟩ <;> simp [batchIter]
  | cons r rest ih =>
    intro cur curMax
    by_cases h : cur.length = maxSeqs
    · simp only [batchIter, h, if_true, reduceIte]
      simp [ih]
    · simp only [batchIter, h, if_false, reduceIte]
      split <;> simp [ih]

/-- C1: for every finite input stream and every configuration, concatenating
the batches produced by `Batching.__iter__` in emission order yields exactly
the input records in arrival order (nothing dropped, duplicated or
reordered), and after the stream is exhausted a non-empty trailing
`current_batch` is emitted as the final batch. -/
theorem batching_preserves_stream (maxSize : NumbersDict) (maxSeqs : Nat)
    (stream : List (SampleRecord α)) :
    (batchingRun maxSize maxSeqs stream).flatten = stream ∧
    (∀ (cur : List (SampleRecord α)) (curMax : NumbersDict), cur ≠ [] →
      batchIter maxSize maxSeqs [] cur curMax = [cur]) := by
  constructor
  · simpa [batchingRun] using batchIter_flatten maxSize maxSeqs stream [] (NumbersDict.ofInt 0)
  · intro cur curMax hcur
    simp [batchIter, List.isEmpty_iff, hcur]

/-- Witness for C1 at a concrete stream and a concrete trailing batch. -/
theorem batching_preserves_stream_witness :
    (batchingRun (NumbersDict.ofInt 6) 2
        [[("x", [0, 1, 2])], [("x", [(0 : Nat)])]]).flatten
      = [[("x", [0, 1, 2])], [("x", [(0 : Nat)])]] ∧
    batchIter (NumbersDict.ofInt 6) 2 [] [[("x", [(0 : Nat)])]]
        (NumbersDict.ofInt 0) = [[[("x", [(0 : Nat)])]]] :=
  ⟨(batching_preserves_stream (NumbersDict.ofInt 6) 2
      [[("x", [0, 1, 2])], [("x", [(0 : Nat)])]]).1,
   (batching_preserves_stream (NumbersDict.ofInt 6) 2 []).2
      [[("x", [(0 : Nat)])]] (NumbersDict.ofInt 0) (by decide)⟩

theorem batchIter_ne_nil (maxSize : NumbersDict) (maxSeqs : Nat)
    (hpos : 0 < maxSeqs) (stream : List (SampleRecord α)) :
    ∀ cur curMax b, b ∈ batchIter maxSize maxSeqs stream cur curMax → b ≠ [] := by
  induction stream with
  | nil =>
    intro cur curMax b hb
    rcases cur with _ | ⟨a, cur⟩
    · simp [batchIter] at hb
    · simp [batchIter] at hb
      subst hb
      simp
  | cons r rest ih =>
    intro cur curMax b hb
    by_cases h : cur.length = maxSeqs
    · simp only [batchIter, h, reduceIte] at hb
      simp at hb
      rcases hb with hb | hb
      · subst hb
        intro hnil
        rw [hnil] at h
        simp at h
        omega
      · exact ih _ _ _ hb
    · simp only [batchIter, h, reduceIte] at hb
      simp at hb
      split at hb
      · rename_i hguard
        simp at hb
        rcases hb with hb | hb
        · subst hb
          simp at hguard
          exact hguard.1
        · exact ih _ _ _ hb
      · exact ih _ _ _ hb

/-- C10: with `max_seqs` positive (as `Batching.__init__` asserts), every
batch yielded by `Batching.__iter__` is a non-empty list — all three yield
sites are guarded — and the empty input stream produces no batches at all. -/
theorem batching_no_empty_batch (maxSize : NumbersDict) (maxSeqs : Nat)
    (stream : List (SampleRecord α)) (hpos : 0 < maxSeqs) :
    (∀ b ∈ batchingRun maxSize maxSeqs stream, b ≠ []) ∧
    batchingRun maxSize maxSeqs ([] : List (SampleRecord α)) = [] := by
  constructor
  · intro b hb
    exact batchIter_ne_nil maxSize maxSeqs hpos stream _ _ b hb
  · simp [batchingRun, batchIter]

/-- Witness for C10 at a concrete stream and configuration. -/
theorem batching_no_empty_batch_witness :
    (∀ b ∈ batchingRun (NumbersDict.ofInt 4) 2 [[("x", [(0 : Nat)])]], b ≠ []) ∧
    batchingRun (NumbersDict.ofInt 4) 2 ([] : List (SampleRecord Nat)) = [] :=
  batching_no_empty_batch (NumbersDict.ofInt 4) 2 [[("x", [(0 : Nat)])]] (by decide)

theorem map_fst_map_lookup (d : List (String × Nat))
    (h : (d.map Prod.fst).Nodup) :
    (d.map Prod.fst).map (fun k => (k, (d.lookup k).getD 0)) = d := by
  induction d with
  | nil => rfl
  | cons kv t ih =>
    obtain ⟨a, v⟩ := kv
    simp only [List.map_cons, List.nodup_cons] at h ⊢
    congr 1
    · simp [List.lookup]
    · rw [List.map_congr_left, ih h.2]
      intro k hk
      have hne : (k == a) = false := by
        rcases h with ⟨ha, _⟩
        simp only [beq_eq_false_iff_ne, ne_eq]
        intro hak
        exact ha (hak ▸ hk)
      simp [List.lookup, hne]

theorem get?_value_none (d : List (String × Nat)) (k : String) :
    NumbersDict.get? ⟨d, none⟩ k = d.lookup k := by
  unfold NumbersDict.get?
  cases d.lookup k <;> rfl

theorem elemMax_zero_recordLengths (r : SampleRecord α) (h : r.keysNodup) :
    (NumbersDict.ofInt 0).elemMax (recordLengths r) = recordLengths r := by
  unfold NumbersDict.elemMax recordLengths NumbersDict.ofInt
  simp only [NumbersDict.mk.injEq]
  constructor
  · simp only [unionKeys, NumbersDict.keys, List.map_nil, List.nil_append,
      List.contains_nil, Bool.not_false, List.filter_true]
    have hget : ∀ k, NumbersDict.get? ⟨[], some 0⟩ k = some 0 := fun k => rfl
    simp only [hget, Option.getD_some, Nat.zero_max, get?_value_none]
    have hnd : ((r.map (fun kv => (kv.1, kv.2.length))).map Prod.fst).Nodup := by
      simpa [Function.comp] using h
    have := map_fst_map_lookup (r.map (fun kv => (kv.1, kv.2.length))) hnd
    simpa [Function.comp] using this
  · trivial

theorem batchMaxLens_append (cur : List (SampleRecord α)) (r : SampleRecord α) :
    batchMaxLens (cur ++ [r]) = (batchMaxLens cur).elemMax (recordLengths r) := by
  simp [batchMaxLens, List.foldl_append]

theorem batchIter_size_invariant (maxSize : NumbersDict) (maxSeqs : Nat)
    (hpos : 0 < maxSeqs) :
    ∀ (stream : List (SampleRecord α)), (∀ r ∈ stream, r.keysNodup) →
    ∀ (cur : List (SampleRecord α)) (curMax : NumbersDict),
      curMax = batchMaxLens cur →
      cur.length ≤ maxSeqs →
      (2 ≤ cur.length →
        ((batchMaxLens cur).scale cur.length).anyExceeds maxSize = false) →
      ∀ b ∈ batchIter maxSize maxSeqs stream cur curMax,
        b.length ≤ maxSeqs ∧
        (2 ≤ b.length →
          ((batchMaxLens b).scale b.length).anyExceeds maxSize = false) := by
  intro stream
  induction stream with
  | nil =>
    intro _ cur curMax hmax hlen hsize b hb
    rcases cur with _ | ⟨a, cur⟩
    · simp [batchIter] at hb
    · simp [batchIter] at hb
      subst hb
      exact ⟨hlen, hsize⟩
  | cons r rest ih =>
    intro hnd cur curMax hmax hlen hsize b hb
    have hndr : r.keysNodup := hnd r (by simp)
    have hndrest : ∀ r' ∈ rest, r'.keysNodup := fun r' h' => hnd r' (by simp [h'])
    by_cases h : cur.length = maxSeqs
    · simp only [batchIter, h, reduceIte] at hb
      simp at hb
      rcases hb with hb | hb
      · subst hb
        exact ⟨le_of_eq h, hsize⟩
      · refine ih hndrest [r] _ ?_ ?_ ?_ b hb
        · simp [batchMaxLens]
        · simpa using hpos
        · intro h2
          simp at h2
    · simp only [batchIter, h, reduceIte] at hb
      simp at hb
      split at hb
      · rename_i hguard
        simp at hb
        rcases hb with hb | hb
        · subst hb
          exact ⟨hlen, hsize⟩
        · refine ih hndrest [r] (recordLengths r) ?_ ?_ ?_ b hb
          · rw [← elemMax_zero_recordLengths r hndr]
            simp [batchMaxLens]
          · simpa using hpos
          · intro h2
            simp at h2
      · rename_i hguard
        refine ih hndrest (cur ++ [r]) _ ?_ ?_ ?_ b hb
        · rw [hmax, batchMaxLens_append]
        · simp
          omega
        · intro h2
          simp at h2
          rw [batchMaxLens_append, ← hmax]
          simp at hguard
          have hne : ¬cur = [] := by
            intro hc
            subst hc
            simp at h2
          simpa using hguard hne

/-- C2: with `max_seqs` positive and Python-dict records (distinct keys),
every batch emitted by `Batching.__iter__` has at most `max_seqs` records,
and every emitted batch with at least 2 records keeps its padded size —
per-field maximum length times record count — within `max_size` for every
field of the comparison (`any_compare` with `>` returns false); a batch of
length 1 is exempt. -/
theorem batching_respects_limits (maxSize : NumbersDict) (maxSeqs : Nat)
    (stream : List (SampleRecord α)) (hpos : 0 < maxSeqs)
    (hnd : ∀ r ∈ stream, r.keysNodup) :
    ∀ b ∈ batchingRun maxSize maxSeqs stream,
      b.length ≤ maxSeqs ∧
      (2 ≤ b.length →
        ((batchMaxLens b).scale b.length).anyExceeds maxSize = false) := by
  intro b hb
  refine batchIter_size_invariant maxSize maxSeqs hpos stream hnd []
    (NumbersDict.ofInt 0) rfl (by simp) ?_ b hb
  intro h2
  simp at h2

/-- Witness for C2: scenario A of the spec, `max_seqs = 2`,
`max_size = NumbersDict({"x": 6})`, four records of length 3; the first
emitted batch holds two records and fits the budget. -/
theorem batching_respects_limits_witness :
    ([[("x", [0, 0, 0])], [("x", [0, 0, 0])]] : List (SampleRecord Nat)).length ≤ 2 ∧
    (2 ≤ ([[("x", [0, 0, 0])], [("x", [0, 0, 0])]] : List (SampleRecord Nat)).length →
      ((batchMaxLens
          ([[("x", [0, 0, 0])], [("x", [0, 0, 0])]] : List (SampleRecord Nat))).scale
        ([[("x", [0, 0, 0])], [("x", [0, 0, 0])]] :
          List (SampleRecord Nat)).length).anyExceeds
        (NumbersDict.ofDict [("x", 6)]) = false) :=
  batching_respects_limits (NumbersDict.ofDict [("x", 6)]) 2
    [[("x", [0, 0, 0])], [("x", [0, 0, 0])], [("x", [0, 0, 0])], [("x", [0, 0, 0])]]
    (by decide) (by decide)
    [[("x", [0, 0, 0])], [("x", [0, 0, 0])]] (by decide)

/-! ## Lookup helper lemmas for the oversized-record argument -/

theorem lookup_map_pair {β : Type} (l : List String) (f : String → β)
    (k : String) (hk : k ∈ l) :
    List.lookup k (l.map (fun x => (x, f x))) = some (f k) := by
  induction l with
  | nil => simp at hk
  | cons a t ih =>
    rcases List.mem_cons.mp hk with h | h
    · subst h
      simp [List.lookup]
    · by_cases hak : k = a
      · subst hak
        simp [List.lookup]
      · have : (k == a) = false := beq_eq_false_iff_ne.mpr hak
        simp [List.lookup, this]
        exact ih h

theorem mem_of_lookup_eq_some {β : Type} (l : List (String × β)) (k : String)
    (v : β) (h : List.lookup k l = some v) : (k, v) ∈ l := by
  induction l with
  | nil => simp [List.lookup] at h
  | cons ab t ih =>
    obtain ⟨a, b⟩ := ab
    simp only [List.lookup] at h
    by_cases hak : k = a
    · subst hak
      simp at h
      simp [h]
    · have hbeq : (k == a) = false := beq_eq_false_iff_ne.mpr hak
      rw [hbeq] at h
      simp at h ⊢
      right
      exact ih h

theorem lookup_map_snd {β γ : Type} (l : List (String × β)) (g : β → γ)
    (k : String) :
    List.lookup k (l.map (fun kv => (kv.1, g kv.2))) = (List.lookup k l).map g := by
  induction l with
  | nil => rfl
  | cons ab t ih =>
    obtain ⟨a, b⟩ := ab
    by_cases hak : k = a
    · subst hak
      simp [List.lookup]
    · have hbeq : (k == a) = false := beq_eq_false_iff_ne.mpr hak
      simp [List.lookup, hbeq]
      exact ih

theorem mem_unionKeys (a b : List String) (k : String)
    (h : k ∈ a ∨ k ∈ b) : k ∈ unionKeys a b := by
  unfold unionKeys
  by_cases hka : k ∈ a
  · exact List.mem_append_left _ hka
  · rcases h with h | h
    · exact absurd h hka
    · refine List.mem_append_right _ ?_
      refine List.mem_filter.mpr ⟨h, ?_⟩
      simp [hka]

theorem elemMax_lookup (a b : NumbersDict) (k : String)
    (hk : k ∈ unionKeys a.keys b.keys) :
    List.lookup k (a.elemMax b).dict
      = some (Nat.max ((a.get? k).getD 0) ((b.get? k).getD 0)) := by
  unfold NumbersDict.elemMax
  exact lookup_map_pair _ _ k hk

theorem get?_of_lookup (d : NumbersDict) (k : String) (v : Nat)
    (h : List.lookup k d.dict = some v) : d.get? k = some v := by
  unfold NumbersDict.get?
  rw [h]

theorem lookup_of_get?_value_none (d : NumbersDict) (k : String) (v : Nat)
    (hval : d.value = none) (h : d.get? k = some v) :
    List.lookup k d.dict = some v := by
  unfold NumbersDict.get? at h
  split at h
  · rename_i w heq
    exact heq.trans h
  · rw [hval] at h
    cases h

theorem anyExceeds_of_entry (a b : NumbersDict) (k : String) (v m : Nat)
    (hv : List.lookup k a.dict = some v) (hm : b.get? k = some m) (hlt : m < v) :
    a.anyExceeds b = true := by
  unfold NumbersDict.anyExceeds
  have hmem : (k, v) ∈ a.dict := mem_of_lookup_eq_some _ _ _ hv
  have hany : (a.dict.any (fun kv =>
      match b.get? kv.1 with
      | some m => decide (m < kv.2)
      | none => false)) = true :=
    List.any_eq_true.mpr ⟨(k, v), hmem, by simp [hm, hlt]⟩
  simp [hany]

/-- C5: a record arriving while `current_batch` is empty is always appended —
the `current_batch and ...` guard cannot fire — even when its padded size
alone strictly exceeds `max_size` for some field; such an oversized record is
then emitted as a singleton batch (the very first batch of the run), never
rejected and never stalling the stream. -/
theorem batching_accepts_oversized (maxSize : NumbersDict) (maxSeqs : Nat)
    (r : SampleRecord α) (rest : List (SampleRecord α)) (hpos : 0 < maxSeqs)
    (k : String) (m v : Nat) (hm : maxSize.get? k = some m)
    (hv : (recordLengths r).get? k = some v) (hlt : m < v) :
    ∃ bs, batchingRun maxSize maxSeqs (r :: rest) = [r] :: bs := by
  have hlook : List.lookup k (recordLengths r).dict = some v :=
    lookup_of_get?_value_none _ _ _ rfl hv
  have h0 : ¬((0 : Nat) = maxSeqs) := by omega
  unfold batchingRun
  simp only [batchIter, List.length_nil, h0, reduceIte, List.isEmpty_nil,
    Bool.not_true, Bool.false_and, List.nil_append]
  rw [if_neg (by simp)]
  rcases rest with _ | ⟨r2, rest2⟩
  · exact ⟨[], by simp [batchIter]⟩
  · have hkeys : k ∈ (recordLengths r).keys :=
      List.mem_map.mpr ⟨(k, v), mem_of_lookup_eq_some _ _ _ hlook, rfl⟩
    have hA : List.lookup k ((NumbersDict.ofInt 0).elemMax (recordLengths r)).dict
        = some v := by
      rw [elemMax_lookup _ _ k (mem_unionKeys _ _ k (Or.inr hkeys))]
      have hz : (NumbersDict.ofInt 0).get? k = some 0 := rfl
      rw [hz, hv]
      simp
    by_cases h1 : ([r] : List (SampleRecord α)).length = maxSeqs
    · refine ⟨batchIter maxSize maxSeqs rest2 [r2]
        ((NumbersDict.ofInt 0).elemMax (recordLengths r2)), ?_⟩
      simp only [batchIter, h1, reduceIte]
      simp
    · have hB := elemMax_lookup ((NumbersDict.ofInt 0).elemMax (recordLengths r))
        (recordLengths r2) k (mem_unionKeys _ _ k (Or.inl (List.mem_map.mpr
          ⟨(k, v), mem_of_lookup_eq_some _ _ _ hA, rfl⟩)))
      rw [get?_of_lookup _ _ _ hA] at hB
      simp only [Option.getD_some] at hB
      have hvw : v ≤ Nat.max v (((recordLengths r2).get? k).getD 0) :=
        Nat.le_max_left _ _
      have hscale : List.lookup k
          ((((NumbersDict.ofInt 0).elemMax (recordLengths r)).elemMax
              (recordLengths r2)).scale
            (([r] : List (SampleRecord α)).length + 1)).dict
          = some (Nat.max v (((recordLengths r2).get? k).getD 0)
              * (([r] : List (SampleRecord α)).length + 1)) := by
        simp only [NumbersDict.scale]
        rw [lookup_map_snd
          ((((NumbersDict.ofInt 0).elemMax (recordLengths r)).elemMax
              (recordLengths r2)).dict)
          (fun x => x * (([r] : List (SampleRecord α)).length + 1)) k]
        rw [hB]
        rfl
      have hg : (((((NumbersDict.ofInt 0).elemMax (recordLengths r)).elemMax
            (recordLengths r2)).scale
            (([r] : List (SampleRecord α)).length + 1)).anyExceeds maxSize) = true := by
        refine anyExceeds_of_entry _ _ k _ m hscale hm ?_
        simp only [List.length_cons, List.length_nil]
        omega
      simp only [batchIter, h1, reduceIte, List.isEmpty_cons, Bool.not_false,
        Bool.true_and, hg]
      exact ⟨batchIter maxSize maxSeqs rest2 [r2] (recordLengths r2), by simp⟩

/-- Witness for C5: scenario B of the spec, a single record of length 10
under `max_size = NumbersDict({"x": 4})` forms its own singleton batch. -/
theorem batching_accepts_oversized_witness :
    ∃ bs, batchingRun (NumbersDict.ofDict [("x", 4)]) 100
        [[("x", [0, 1, 2, 3, 4, 5, 6, 7, 8, 9])]]
      = [[("x", [(0 : Nat), 1, 2, 3, 4, 5, 6, 7, 8, 9])]] :: bs :=
  batching_accepts_oversized (NumbersDict.ofDict [("x", 4)]) 100
    [("x", [(0 : Nat), 1, 2, 3, 4, 5, 6, 7, 8, 9])] [] (by decide)
    "x" 4 10 (by decide) (by decide) (by decide)

/-! ## Helper lemmas about slicing -/

theorem sliceChunks_nil (size step : Nat) (hstep : 0 < step) :
    sliceChunks ([] : List α) size step = [] := by
  have hc : (step - 1) / step = 0 := Nat.div_eq_of_lt (by omega)
  simp [sliceChunks, hc]

theorem range'_map_shift (data : List α) (size step : Nat) :
    ∀ (n s : Nat),
      (List.range' (s + step) n step).map (fun start => (data.drop start).take size)
        = (List.range' s n step).map
            (fun start => ((data.drop step).drop start).take size) := by
  intro n
  induction n with
  | zero => intro s; rfl
  | succ n ih =>
    intro s
    rw [List.range'_succ, List.range'_succ]
    simp only [List.map_cons]
    congr 1
    · rw [List.drop_drop]
      congr 2
      omega
    · exact ih (s + step)

theorem sliceChunks_cons (data : List α) (size step : Nat) (hstep : 0 < step)
    (hdata : data ≠ []) :
    sliceChunks data size step
      = data.take size :: sliceChunks (data.drop step) size step := by
  have hlen : 0 < data.length := List.length_pos.mpr hdata
  have hc : (data.length + step - 1) / step
      = ((data.length - step) + step - 1) / step + 1 := by
    rcases Nat.lt_or_ge data.length step with h | h
    · have h1 : data.length - step = 0 := by omega
      rw [h1]
      have h2 : (0 + step - 1) / step = 0 := Nat.div_eq_of_lt (by omega)
      rw [h2]
      exact Nat.div_eq_of_lt_le (by omega) (by omega)
    · have h1 : data.length + step - 1 = (data.length - 1) + step := by omega
      have h2 : data.length - step + step - 1 = data.length - 1 := by omega
      rw [h1, h2, Nat.add_div_right _ hstep]
  unfold sliceChunks
  rw [List.length_drop, hc, List.range'_succ]
  simp only [List.map_cons, List.drop_zero]
  congr 1
  have := range'_map_shift data size step (((data.length - step) + step - 1) / step) 0
  simpa using this

theorem sliceChunks_flatten (step : Nat) (hstep : 0 < step) :
    ∀ (data : List α), (sliceChunks data step step).flatten = data := by
  have main : ∀ (n : Nat) (data : List α), data.length ≤ n →
      (sliceChunks data step step).flatten = data := by
    intro n
    induction n with
    | zero =>
      intro data h
      have hnil : data = [] := List.eq_nil_of_length_eq_zero (by omega)
      subst hnil
      rw [sliceChunks_nil _ _ hstep]
      rfl
    | succ n ih =>
      intro data h
      rcases eq_or_ne data [] with hd | hd
      · subst hd
        rw [sliceChunks_nil _ _ hstep]
        rfl
      · rw [sliceChunks_cons data step step hstep hd, List.flatten_cons,
          ih (data.drop step) (by simp; omega)]
        exact List.take_append_drop step data
  intro data
  exact main data.length data le_rfl

/-- C3: for any active field whose configured chunk size equals its chunk step
(no overlap, both positive as `_parse_chunking` asserts), concatenating the
emitted chunk slices of that field along axis 0 reconstructs the field's
original array exactly. -/
theorem chunker_roundtrip (chunkSize chunkStep : NumbersDict)
    (r : SampleRecord α) (k : String) (chunks : List (List α)) (s : Nat)
    (hsize : chunkSize.get? k = some s) (hstep : chunkStep.get? k = some s)
    (hpos : 0 < s) (hchunks : fieldChunks chunkSize chunkStep r k = some chunks) :
    ∃ data, r.lookup k = some data ∧ chunks.flatten = data := by
  unfold fieldChunks at hchunks
  rw [hsize, hstep] at hchunks
  cases hdata : r.lookup k with
  | none =>
    rw [hdata] at hchunks
    cases hchunks
  | some data =>
    rw [hdata] at hchunks
    refine ⟨data, rfl, ?_⟩
    have : chunks = sliceChunks data s s := by
      injection hchunks with h
      exact h.symm
    rw [this]
    exact sliceChunks_flatten s hpos data

/-- Witness for C3: chunk size = step = 2 on a field of length 5. -/
theorem chunker_roundtrip_witness :
    ∃ data, ([("x", [0, 1, 2, 3, 4])] : SampleRecord Nat).lookup "x" = some data ∧
      ([[0, 1], [2, 3], [4]] : List (List Nat)).flatten = data :=
  chunker_roundtrip (NumbersDict.ofInt 2) (NumbersDict.ofInt 2)
    [("x", [0, 1, 2, 3, 4])] "x" [[0, 1], [2, 3], [4]] 2
    (by decide) (by decide) (by decide) (by decide)

/-- C4: a successfully chunked record always yields at least one chunk, and
for positive field length the per-field chunk count is the ceiling
`(len + step - 1) / step` of `len / step`; window `i` (whenever
`i * step < len`) starts at offset `i * step` and has length
`min(size, len - i * step)`. -/
theorem chunker_window_spec (chunkSize chunkStep : NumbersDict)
    (keys : List String) (r : SampleRecord α) (out : List (SampleRecord α))
    (data : List α) (size step : Nat) (hstep : 0 < step)
    (hlen : 0 < data.length) :
    (chunkRecord chunkSize chunkStep keys r = .ok out → out ≠ []) ∧
    0 < (sliceChunks data size step).length ∧
    (sliceChunks data size step).length = (data.length + step - 1) / step ∧
    (∀ i, i * step < data.length →
      (sliceChunks data size step)[i]? = some ((data.drop (i * step)).take size) ∧
      ((data.drop (i * step)).take size).length
        = min size (data.length - i * step)) := by
  have hcount : (sliceChunks data size step).length
      = (data.length + step - 1) / step := by
    simp [sliceChunks]
  refine ⟨?_, ?_, hcount, ?_⟩
  · intro hok
    unfold chunkRecord at hok
    split at hok
    · cases hok
    · split at hok
      · cases hok
      · cases hok
      · rename_i dataChunks numChunks n heq
        injection hok with hok
        rw [← hok]
        simp
        exact n
  · rw [hcount]
    exact Nat.div_pos (by omega) hstep
  · intro i hi
    have h1 : (i + 1) * step ≤ data.length + step - 1 := by
      have hmul : (i + 1) * step = i * step + step := Nat.succ_mul i step
      omega
    have hic : i < (data.length + step - 1) / step := by
      have := (Nat.le_div_iff_mul_le hstep).mpr h1
      omega
    constructor
    · unfold sliceChunks
      rw [List.getElem?_map, List.getElem?_range' _ _ hic]
      simp [Nat.mul_comm]
    · rw [List.length_take, List.length_drop]

/-- Witness for C4: scenario C of the spec, `chunk_size = 4`,
`chunk_step = 2`, field length 10: five chunks, the last at offset 8 holding
the final two rows. -/
theorem chunker_window_spec_witness :
    (sliceChunks ([0, 1, 2, 3, 4, 5, 6, 7, 8, 9] : List Nat) 4 2).length = 5 ∧
    (sliceChunks ([0, 1, 2, 3, 4, 5, 6, 7, 8, 9] : List Nat) 4 2)[4]?
      = some [8, 9] :=
  ⟨((chunker_window_spec (NumbersDict.ofInt 4) (NumbersDict.ofInt 2) ["x"]
      [("x", [0, 1, 2, 3, 4, 5, 6, 7, 8, 9])] []
      ([0, 1, 2, 3, 4, 5, 6, 7, 8, 9] : List Nat) 4 2 (by decide)
      (by decide)).2.2.1).trans (by decide),
   (((chunker_window_spec (NumbersDict.ofInt 4) (NumbersDict.ofInt 2) ["x"]
      [("x", [0, 1, 2, 3, 4, 5, 6, 7, 8, 9])] []
      ([0, 1, 2, 3, 4, 5, 6, 7, 8, 9] : List Nat) 4 2 (by decide)
      (by decide)).2.2.2 4 (by decide)).1).trans (by decide)⟩

/-- C8: whenever `chunk_step` is unspecified (absent, bare value, or `None`
in the tuple) or zero, `_parse_chunking` defaults it, per field, to
`chunk_size`; given a valid `chunk_size` (positive minimum), construction
succeeds with `chunk_step` equal to `chunk_size`. -/
theorem parse_chunking_default_step (v : ChunkVal)
    (hmin : minValuePositive v.toNumbersDict = true) :
    parseChunking (.single (some v)) = some (v.toNumbersDict, v.toNumbersDict) ∧
    parseChunking (.pair (some v) none) = some (v.toNumbersDict, v.toNumbersDict) ∧
    parseChunking (.pair (some v) (some (.int 0)))
      = some (v.toNumbersDict, v.toNumbersDict) := by
  have hperm : (v.toNumbersDict.keys).isPerm v.toNumbersDict.keys = true :=
    List.isPerm_iff.mpr (List.Perm.refl _)
  unfold parseChunking
  simp [hmin, hperm]

/-- Witness for C8 at `chunk_size = {"x": 3, "y": 5}` with the three shapes
of unspecified or zero `chunk_step`. -/
theorem parse_chunking_default_step_witness :
    parseChunking (.single (some (.dict [("x", 3), ("y", 5)])))
      = some ((ChunkVal.dict [("x", 3), ("y", 5)]).toNumbersDict,
          (ChunkVal.dict [("x", 3), ("y", 5)]).toNumbersDict) ∧
    parseChunking (.pair (some (.dict [("x", 3), ("y", 5)])) none)
      = some ((ChunkVal.dict [("x", 3), ("y", 5)]).toNumbersDict,
          (ChunkVal.dict [("x", 3), ("y", 5)]).toNumbersDict) ∧
    parseChunking (.pair (some (.dict [("x", 3), ("y", 5)])) (some (.int 0)))
      = some ((ChunkVal.dict [("x", 3), ("y", 5)]).toNumbersDict,
          (ChunkVal.dict [("x", 3), ("y", 5)]).toNumbersDict) :=
  parse_chunking_default_step (.dict [("x", 3), ("y", 5)]) (by decide)

theorem lookup_eq_none_of_not_mem_fst {β : Type} (l : List (String × β))
    (k : String) (h : k ∉ l.map Prod.fst) : List.lookup k l = none := by
  induction l with
  | nil => rfl
  | cons ab t ih =>
    obtain ⟨a, b⟩ := ab
    simp only [List.map_cons, List.mem_cons, not_or] at h
    have hbeq : (k == a) = false := beq_eq_false_iff_ne.mpr h.1
    simp only [List.lookup, hbeq]
    exact ih h.2

theorem lookup_append_left_none {β : Type} (l1 l2 : List (String × β))
    (k : String) (h : List.lookup k l1 = none) :
    List.lookup k (l1 ++ l2) = List.lookup k l2 := by
  induction l1 with
  | nil => rfl
  | cons ab t ih =>
    obtain ⟨a, b⟩ := ab
    cases hbeq : (k == a) with
    | true =>
      simp [List.lookup, hbeq] at h
    | false =>
      simp only [List.cons_append, List.lookup, hbeq] at h ⊢
      exact ih h

theorem lookup_filter_eq {β : Type} (l : List (String × β))
    (p : String × β → Bool) (k : String) (hp : ∀ v, p (k, v) = true) :
    List.lookup k (l.filter p) = List.lookup k l := by
  induction l with
  | nil => rfl
  | cons ab t ih =>
    obtain ⟨a, b⟩ := ab
    by_cases hak : k = a
    · subst hak
      rw [List.filter_cons, hp b]
      simp [List.lookup]
    · have hbeq : (k == a) = false := beq_eq_false_iff_ne.mpr hak
      rw [List.filter_cons]
      cases hpb : p (a, b) <;> simp [List.lookup, hbeq, ih, hpb]

theorem collectChunks_map_fst (cs ct : NumbersDict) (r : SampleRecord α) :
    ∀ (ks : List String) (num : Option Nat) (dc : List (String × List (List α)))
      (num' : Option Nat),
      collectChunks cs ct r ks num = .ok (dc, num') → dc.map Prod.fst = ks := by
  intro ks
  induction ks with
  | nil =>
    intro num dc num' h
    simp only [collectChunks] at h
    cases h
    rfl
  | cons a t ih =>
    intro num dc num' h
    simp only [collectChunks] at h
    split at h
    · cases h
    · split at h
      · split at h
        · rename_i heq
          cases h
          simp only [List.map_cons]
          rw [ih _ _ _ heq]
        · cases h
      · split at h
        · split at h
          · rename_i heq
            cases h
            simp only [List.map_cons]
            rw [ih _ _ _ heq]
          · cases h
        · cases h

/-- C9: any field of the input record that is not in the active chunking key
set appears in every emitted chunk with a value equal to the original field
(the `deepcopy` of `non_chunked_data`; in this pure embedding a deep copy is
observationally the identity, and each chunk's copy is independent by
construction). -/
theorem chunker_nonactive_fields (chunkSize chunkStep : NumbersDict)
    (keys : List String) (r : SampleRecord α) (out : List (SampleRecord α))
    (hok : chunkRecord chunkSize chunkStep keys r = .ok out) (k : String)
    (hk : k ∉ keys) :
    ∀ c ∈ out, c.lookup k = r.lookup k := by
  unfold chunkRecord at hok
  split at hok
  · cases hok
  · split at hok
    · cases hok
    · cases hok
    · rename_i x dc numOpt n hcon heq
      injection hok with hok
      subst hok
      intro c hc
      rw [List.mem_map] at hc
      obtain ⟨i, hi, rfl⟩ := hc
      have hfst : dc.map Prod.fst = keys :=
        collectChunks_map_fst chunkSize chunkStep r keys none dc (some n) heq
      have h1 : List.lookup k (dc.map (fun kc => (kc.1, kc.2.getD i []))) = none := by
        apply lookup_eq_none_of_not_mem_fst
        have hmm : (dc.map (fun kc => (kc.1, kc.2.getD i []))).map Prod.fst
            = dc.map Prod.fst := by
          simp
        rw [hmm, hfst]
        exact hk
      rw [lookup_append_left_none _ _ _ h1]
      apply lookup_filter_eq
      intro v
      simp [hfst]
      exact hk

/-- Witness for C9: field "y" is not chunked and reappears unchanged in the
second emitted chunk. -/
theorem chunker_nonactive_fields_witness :
    List.lookup "y" ([("x", [2, 3]), ("y", [5])] : SampleRecord Nat)
      = List.lookup "y" ([("x", [0, 1, 2, 3]), ("y", [5])] : SampleRecord Nat) :=
  chunker_nonactive_fields (NumbersDict.ofDict [("x", 2)])
    (NumbersDict.ofDict [("x", 2)]) ["x"]
    [("x", [0, 1, 2, 3]), ("y", [5])]
    [[("x", [0, 1]), ("y", [5])], [("x", [2, 3]), ("y", [5])]]
    (by rfl) "y" (by decide)
    [("x", [2, 3]), ("y", [5])] (by decide)

theorem collectChunks_mismatch_some (cs ct : NumbersDict) (r : SampleRecord α) :
    ∀ (ks : List String) (n : Nat),
      (∀ k ∈ ks, (fieldChunks cs ct r k).isSome) →
      (collectChunks cs ct r ks (some n) = .error .mismatch ↔
        ∃ k ∈ ks, fieldNumChunks cs ct r k ≠ some n) := by
  intro ks
  induction ks with
  | nil =>
    intro n h
    simp [collectChunks]
  | cons a t ih =>
    intro n h
    have ha : (fieldChunks cs ct r a).isSome := h a (by simp)
    obtain ⟨chunks, hch⟩ := Option.isSome_iff_exists.mp ha
    have ht : ∀ k ∈ t, (fieldChunks cs ct r k).isSome := fun k hk => h k (by simp [hk])
    have hca : fieldNumChunks cs ct r a = some chunks.length := by
      simp [fieldNumChunks, hch]
    simp only [collectChunks, hch]
    by_cases hn : n = chunks.length
    · rw [if_pos hn]
      have hstep : (match collectChunks cs ct r t (some n) with
          | .ok (restChunks, numChunks1) =>
              (Except.ok ((a, chunks) :: restChunks, numChunks1) :
                Except ChunkError (List (String × List (List α)) × Option Nat))
          | .error e => Except.error e) = Except.error ChunkError.mismatch
          ↔ collectChunks cs ct r t (some n) = .error .mismatch := by
        cases hrec : collectChunks cs ct r t (some n) with
        | ok p =>
          obtain ⟨dc1, n1⟩ := p
          simp
        | error e =>
          simp
      rw [hstep, ih n ht]
      constructor
      · rintro ⟨k, hk, hne⟩
        exact ⟨k, by simp [hk], hne⟩
      · rintro ⟨k, hk, hne⟩
        rcases List.mem_cons.mp hk with hk | hk
        · subst hk
          rw [hca, hn] at hne
          exact absurd rfl hne
        · exact ⟨k, hk, hne⟩
    · rw [if_neg hn]
      simp only [true_iff, iff_true_intro rfl]
      refine ⟨a, by simp, ?_⟩
      rw [hca]
      intro hcontra
      exact hn (Option.some.inj hcontra).symm

theorem collectChunks_mismatch_none (cs ct : NumbersDict) (r : SampleRecord α)
    (ks : List String) (h : ∀ k ∈ ks, (fieldChunks cs ct r k).isSome) :
    collectChunks cs ct r ks none = .error .mismatch ↔
      ∃ k1 ∈ ks, ∃ k2 ∈ ks,
        fieldNumChunks cs ct r k1 ≠ fieldNumChunks cs ct r k2 := by
  cases ks with
  | nil => simp [collectChunks]
  | cons a t =>
    have ha : (fieldChunks cs ct r a).isSome := h a (by simp)
    obtain ⟨chunks, hch⟩ := Option.isSome_iff_exists.mp ha
    have ht : ∀ k ∈ t, (fieldChunks cs ct r k).isSome := fun k hk => h k (by simp [hk])
    have hca : fieldNumChunks cs ct r a = some chunks.length := by
      simp [fieldNumChunks, hch]
    simp only [collectChunks, hch]
    have hstep : (match collectChunks cs ct r t (some chunks.length) with
        | .ok (restChunks, numChunks1) =>
            (Except.ok ((a, chunks) :: restChunks, numChunks1) :
              Except ChunkError (List (String × List (List α)) × Option Nat))
        | .error e => Except.error e) = Except.error ChunkError.mismatch
        ↔ collectChunks cs ct r t (some chunks.length) = .error .mismatch := by
      cases hrec : collectChunks cs ct r t (some chunks.length) with
      | ok p =>
        obtain ⟨dc1, n1⟩ := p
        simp
      | error e =>
        simp
    rw [hstep, collectChunks_mismatch_some cs ct r t chunks.length ht]
    constructor
    · rintro ⟨k, hk, hne⟩
      refine ⟨a, by simp, k, by simp [hk], ?_⟩
      rw [hca]
      intro hcontra
      exact hne hcontra.symm
    · rintro ⟨k1, hk1, k2, hk2, hne⟩
      by_contra hno
      push_neg at hno
      have hall : ∀ k ∈ a :: t, fieldNumChunks cs ct r k = some chunks.length := by
        intro k hk
        rcases List.mem_cons.mp hk with hk | hk
        · subst hk
          exact hca
        · exact hno k hk
      exact hne ((hall k1 hk1).trans (hall k2 hk2).symm)

/-- C6: assuming every active key is present in the record (no earlier
`KeyError`), one record makes `Chunker.__iter__` fail with the chunking
mismatch assertion exactly when two active fields yield different chunk
counts; with equal counts everywhere no mismatch error is raised. The error
is fatal: the whole stream iteration stops with it. -/
theorem chunker_mismatch_fatal (chunkSize chunkStep : NumbersDict)
    (keys : List String) (r : SampleRecord α)
    (hsome : ∀ k ∈ keys, (fieldChunks chunkSize chunkStep r k).isSome) :
    (chunkRecord chunkSize chunkStep keys r = .error .mismatch ↔
      ∃ k1 ∈ keys, ∃ k2 ∈ keys,
        fieldNumChunks chunkSize chunkStep r k1
          ≠ fieldNumChunks chunkSize chunkStep r k2) ∧
    (∀ (rest : List (SampleRecord α)), keys ≠ [] →
      chunkRecord chunkSize chunkStep keys r = .error .mismatch →
      chunkerGo chunkSize chunkStep keys (r :: rest) = .error .mismatch) := by
  constructor
  · rw [← collectChunks_mismatch_none chunkSize chunkStep r keys hsome]
    unfold chunkRecord
    cases hcol : collectChunks chunkSize chunkStep r keys none with
    | error e => simp
    | ok p =>
      obtain ⟨dc, num⟩ := p
      rcases num with _ | n
      · simp
      · rcases n with _ | n
        · simp
        · simp
  · intro rest hne hmis
    have hemp : keys.isEmpty = false := by
      cases keys
      · exact absurd rfl hne
      · rfl
    simp [chunkerGo, hemp, hmis]

/-- Witness for C6: fields "x" (length 4) and "y" (length 3) under uniform
size/step 2 give 2 vs 2 chunks — no mismatch — while "y" of length 5 gives
3 chunks and the mismatch error, which aborts the stream. -/
theorem chunker_mismatch_fatal_witness :
    (chunkRecord (NumbersDict.ofInt 2) (NumbersDict.ofInt 2) ["x", "y"]
        ([("x", [0, 1, 2, 3]), ("y", [0, 1, 2, 3, 4])] : SampleRecord Nat)
        = .error .mismatch ↔
      ∃ k1 ∈ ["x", "y"], ∃ k2 ∈ ["x", "y"],
        fieldNumChunks (NumbersDict.ofInt 2) (NumbersDict.ofInt 2)
            ([("x", [0, 1, 2, 3]), ("y", [0, 1, 2, 3, 4])] : SampleRecord Nat) k1
          ≠ fieldNumChunks (NumbersDict.ofInt 2) (NumbersDict.ofInt 2)
            ([("x", [0, 1, 2, 3]), ("y", [0, 1, 2, 3, 4])] : SampleRecord Nat) k2) ∧
    chunkerGo (NumbersDict.ofInt 2) (NumbersDict.ofInt 2) ["x", "y"]
        ([([("x", [0, 1, 2, 3]), ("y", [0, 1, 2, 3, 4])] : SampleRecord Nat)])
      = .error .mismatch :=
  ⟨(chunker_mismatch_fatal (NumbersDict.ofInt 2) (NumbersDict.ofInt 2) ["x", "y"]
      ([("x", [0, 1, 2, 3]), ("y", [0, 1, 2, 3, 4])] : SampleRecord Nat)
      (by decide)).1,
   (chunker_mismatch_fatal (NumbersDict.ofInt 2) (NumbersDict.ofInt 2) ["x", "y"]
      ([("x", [0, 1, 2, 3]), ("y", [0, 1, 2, 3, 4])] : SampleRecord Nat)
      (by decide)).2 [] (by decide) (by rfl)⟩

theorem chunkerGo_eq_fixed (cs ct : NumbersDict) (keys : List String)
    (hne : keys ≠ []) :
    ∀ (l : List (SampleRecord α)),
      chunkerGo cs ct keys l = chunkerIterFixed cs ct keys l := by
  have hemp : keys.isEmpty = false := by
    cases keys
    · exact absurd rfl hne
    · rfl
  intro l
  induction l with
  | nil => rfl
  | cons r rest ih =>
    simp only [chunkerGo, chunkerIterFixed, hemp, Bool.false_eq_true, reduceIte]
    cases hcr : chunkRecord cs ct keys r <;> simp [hcr, ih]

/-- C7 counterexample: under uniform chunking (no field-keyed configuration),
line 99 assigns `chunking_data_keys` from the FIRST record and the assignment
persists, so a second record with a different field set is processed with the
first record's keys and fails with a `KeyError` — whereas the spec's
per-record reading (`chunkerIterPerRecordKeys`) would chunk it successfully. -/
theorem chunker_active_keys_counterexample :
    chunkerIter (NumbersDict.ofInt 1) (NumbersDict.ofInt 1)
        ([[("a", [0])], [("b", [0])]] : List (SampleRecord Nat))
      = .error .keyError ∧
    chunkerIterPerRecordKeys (NumbersDict.ofInt 1) (NumbersDict.ofInt 1)
        ([[("a", [0])], [("b", [0])]] : List (SampleRecord Nat))
      = .ok [[("a", [0])], [("b", [0])]] :=
  ⟨by rfl, by rfl⟩

/-- C7 (amended): when chunking is configured as a field-keyed mapping the
active field set is exactly the mapping's explicit keys; when configured
uniformly the active field set is every field of the FIRST incoming record,
and this set then persists for every later record of the stream. -/
theorem chunker_active_keys (chunkSize chunkStep : NumbersDict)
    (r : SampleRecord α) (rest : List (SampleRecord α))
    (hne : chunkerActiveKeys chunkSize r ≠ []) :
    (chunkSize.keys ≠ [] → chunkerActiveKeys chunkSize r = chunkSize.keys) ∧
    chunkerIter chunkSize chunkStep (r :: rest)
      = (match chunkRecord chunkSize chunkStep (chunkerActiveKeys chunkSize r) r with
        | .error e => .error e
        | .ok out =>
          match chunkerIterFixed chunkSize chunkStep
              (chunkerActiveKeys chunkSize r) rest with
          | .error e => .error e
          | .ok outs => .ok (out ++ outs)) := by
  have hemp : (chunkerActiveKeys chunkSize r).isEmpty = false := by
    cases hl : chunkerActiveKeys chunkSize r
    · exact absurd hl hne
    · rfl
  constructor
  · intro h
    have hk : chunkSize.keys.isEmpty = false := by
      cases hck : chunkSize.keys
      · exact absurd hck h
      · rfl
    simp [chunkerActiveKeys, hk]
  · have hkeys : (if chunkSize.keys.isEmpty then r.map Prod.fst else chunkSize.keys)
        = chunkerActiveKeys chunkSize r := rfl
    simp only [chunkerIter, chunkerGo, hkeys, hemp, Bool.false_eq_true, reduceIte]
    cases hcr : chunkRecord chunkSize chunkStep (chunkerActiveKeys chunkSize r) r <;>
      simp [hcr, chunkerGo_eq_fixed chunkSize chunkStep _ hne rest]

/-- Witness for C7's amended theorem: uniform chunking over a two-record
stream with differing field sets runs with the first record's keys and hits
the `KeyError` on the second record. -/
theorem chunker_active_keys_witness :
    ((NumbersDict.ofInt 1).keys ≠ [] →
      chunkerActiveKeys (NumbersDict.ofInt 1) ([("a", [0])] : SampleRecord Nat)
        = (NumbersDict.ofInt 1).keys) ∧
    chunkerIter (NumbersDict.ofInt 1) (NumbersDict.ofInt 1)
        ([[("a", [0])], [("b", [0])]] : List (SampleRecord Nat))
      = .error .keyError :=
  ⟨(chunker_active_keys (NumbersDict.ofInt 1) (NumbersDict.ofInt 1)
      ([("a", [0])] : SampleRecord Nat) [[("b", [0])]] (by decide)).1,
   ((chunker_active_keys (NumbersDict.ofInt 1) (NumbersDict.ofInt 1)
      ([("a", [0])] : SampleRecord Nat) [[("b", [0])]] (by decide)).2).trans (by rfl)⟩
